import Mathlib

/-
Verification of the computation-graph library in src/main.rs.

The Rust program stores nodes behind reference-counted, interiorly mutable
handles (Rc<RefCell<Node>>).  Following the arena modelling suggested by the
design notes, the shallow embedding represents the whole heap of nodes as a
list indexed by natural numbers: a Graph handle becomes an index, and every
operation that mutates a node through a handle becomes a function from the
node list to an updated node list.  The construction API only ever creates
forward (operand) edges pointing at already existing indices, so in every
state reachable through the API operand indices are smaller and dependent
indices larger than the node that holds them; the predicate WFb captures
exactly that and is checkable by evaluation.

Rust recursion (traverse, clear_cash) is modelled with an explicit fuel
parameter bounding the depth of the call stack; on well-formed (acyclic)
states a fuel of the arena size is always sufficient, which is what the
wrappers Graph.compute and Graph.set use.  A Rust panic (the unwrap of an
unset input cache) is modelled by returning none together with the node
state at the moment of the panic, so that partially performed cache writes
remain observable, exactly as they do across a caught unwind in Rust.

Scalars are f32 in the source.  Bit-level IEEE-754 arithmetic is outside
the scope of this embedding, so the scalar type and the four primitive
operations (addition, multiplication, powf, sin) are parameters, collected
in FloatOps; the theorems hold for every instantiation, in particular for
the IEEE-754 single-precision one the source uses.
-/

namespace CompGraph

/-- Operation performed by a node; mirrors enum OperationType in
src/main.rs.  Operand handles are arena indices. -/
inductive Op where
  | input : String → Op
  | add : Nat → Nat → Op
  | mul : Nat → Nat → Op
  | sin : Nat → Op
  | powF32 : Nat → Nat → Op
deriving DecidableEq

/-- Forward (operand) edges of an operation, in source order. -/
def Op.operands : Op → List Nat
  | .input _ => []
  | .add a b => [a, b]
  | .mul a b => [a, b]
  | .sin a => [a]
  | .powF32 b e => [b, e]

/-- A node of the computation graph; mirrors struct Node in src/main.rs. -/
structure Node (F : Type) where
  op_type : Op
  dependent_nodes : List Nat
  cache : Option F
deriving DecidableEq

/-- The whole heap of nodes: index i plays the role of the i-th allocated
Rc<RefCell<Node>> handle. -/
abbrev GState (F : Type) : Type := List (Node F)

/-- Abstract single-precision arithmetic: the four primitive f32 operations
the source uses (addition, multiplication, f32::powf, f32::sin). -/
structure FloatOps (F : Type) where
  add : F → F → F
  mul : F → F → F
  powf : F → F → F
  sinf : F → F

variable {F : Type}

/-- Cached value of node i (none when the node does not exist). -/
def cacheAt (s : GState F) (i : Nat) : Option F :=
  (s.get? i).bind Node.cache

/-- Operation of node i. -/
def opAt (s : GState F) (i : Nat) : Option Op :=
  (s.get? i).map Node.op_type

/-- Dependent (reverse) edges of node i. -/
def depsAt (s : GState F) (i : Nat) : List Nat :=
  ((s.get? i).map Node.dependent_nodes).getD []

/-- Overwrite the cache field of node i (node.cache = c in Rust). -/
def setCache : GState F → Nat → Option F → GState F
  | [], _, _ => []
  | nd :: rest, 0, c => Node.mk nd.op_type nd.dependent_nodes c :: rest
  | nd :: rest, i + 1, c => nd :: setCache rest i c

/-- Append p to the dependent list of node i
(op.dependent_nodes.push(self) in Rust). -/
def pushDep : GState F → Nat → Nat → GState F
  | [], _, _ => []
  | nd :: rest, 0, p => Node.mk nd.op_type (nd.dependent_nodes ++ [p]) nd.cache :: rest
  | nd :: rest, i + 1, p => nd :: pushDep rest i p

namespace Graph

/-- Graph::create_input: allocate a fresh Input node with empty cache and no
dependents; returns the new state and the handle (index) of the new node. -/
def create_input (s : GState F) (name : String) : GState F × Nat :=
  (s ++ [Node.mk (Op.input name) [] none], s.length)

/-- Graph::add_dependent_node: register node as a dependent of op. -/
def add_dependent_node (s : GState F) (node : Nat) (op : Nat) : GState F :=
  pushDep s op node

/-- Graph::add: allocate an Add node over the two operand handles, then
register it as a dependent of each operand, in order. -/
def add (s : GState F) (op1 op2 : Nat) : GState F × Nat :=
  let k := s.length
  let s1 : GState F := s ++ [Node.mk (Op.add op1 op2) [] none]
  (add_dependent_node (add_dependent_node s1 k op1) k op2, k)

/-- Graph::mul: allocate a Mul node, then register it as a dependent of each
operand (twice when both operands are the same handle). -/
def mul (s : GState F) (op1 op2 : Nat) : GState F × Nat :=
  let k := s.length
  let s1 : GState F := s ++ [Node.mk (Op.mul op1 op2) [] none]
  (add_dependent_node (add_dependent_node s1 k op1) k op2, k)

/-- Graph::pow_f32: allocate a PowF32 node, then register dependents. -/
def pow_f32 (s : GState F) (b e : Nat) : GState F × Nat :=
  let k := s.length
  let s1 : GState F := s ++ [Node.mk (Op.powF32 b e) [] none]
  (add_dependent_node (add_dependent_node s1 k b) k e, k)

/-- Graph::sin: allocate a Sin node, then register it as a dependent of its
operand. -/
def sin (s : GState F) (op : Nat) : GState F × Nat :=
  let k := s.length
  let s1 : GState F := s ++ [Node.mk (Op.sin op) [] none]
  (add_dependent_node s1 k op, k)

/-- Graph::traverse.  Returns the computed value together with the updated
node state; (none, s) models the Rust panic (unwrap of an unset input
cache), carrying the node state at the moment of the panic.  The fuel
argument bounds the recursion depth of the Rust call stack; the recursion
of the source decreases the operand index at every step, so on well-formed
states any fuel larger than the queried index behaves like the source. -/
def traverse (ops : FloatOps F) : Nat → GState F → Nat → Option F × GState F
  | 0, s, _ => (none, s)
  | fuel + 1, s, i =>
    match s.get? i with
    | none => (none, s)
    | some nd =>
      match nd.cache with
      | some v => (some v, s)
      | none =>
        match nd.op_type with
        | .input _ => (none, s)
        | .add a b =>
          match traverse ops fuel s a with
          | (none, s1) => (none, s1)
          | (some va, s1) =>
            match traverse ops fuel s1 b with
            | (none, s2) => (none, s2)
            | (some vb, s2) =>
              (some (ops.add va vb), setCache s2 i (some (ops.add va vb)))
        | .mul a b =>
          match traverse ops fuel s a with
          | (none, s1) => (none, s1)
          | (some va, s1) =>
            match traverse ops fuel s1 b with
            | (none, s2) => (none, s2)
            | (some vb, s2) =>
              (some (ops.mul va vb), setCache s2 i (some (ops.mul va vb)))
        | .sin a =>
          match traverse ops fuel s a with
          | (none, s1) => (none, s1)
          | (some va, s1) =>
            (some (ops.sinf va), setCache s1 i (some (ops.sinf va)))
        | .powF32 b e =>
          match traverse ops fuel s b with
          | (none, s1) => (none, s1)
          | (some vb, s1) =>
            match traverse ops fuel s1 e with
            | (none, s2) => (none, s2)
            | (some ve, s2) =>
              (some (ops.powf vb ve), setCache s2 i (some (ops.powf vb ve)))

/-- Graph::compute: traverse from the queried handle; on well-formed states
a recursion budget of the arena size is sufficient. -/
def compute (ops : FloatOps F) (s : GState F) (i : Nat) : Option F × GState F :=
  traverse ops s.length s i

/-- Graph::clear_cash: take the cache of the node, then recursively clear
every dependent in order.  The fuel argument bounds the depth of the Rust
call stack; every dependent edge strictly increases the node index in a
well-formed state, so a fuel of the arena size always suffices. -/
def clear_cash : Nat → GState F → Nat → GState F
  | 0, s, _ => s
  | fuel + 1, s, i =>
    match s.get? i with
    | none => s
    | some nd =>
      nd.dependent_nodes.foldl (fun acc d => clear_cash fuel acc d) (setCache s i none)

/-- Graph::set: when the handle denotes an Input node, clear_cash the node
(and so all its transitive dependents) and then write the new value into
its cache; on any other node the function falls through and does nothing. -/
def set (s : GState F) (i : Nat) (v : F) : GState F :=
  match s.get? i with
  | none => s
  | some nd =>
    match nd.op_type with
    | .input _ => setCache (clear_cash s.length s i) i (some v)
    | _ => s

end Graph

/-- Structure (operation and dependent edges) of every node, the part of the
state that traverse and clear_cash never modify. -/
def shapeOf (s : GState F) : List (Op × List Nat) :=
  s.map fun nd => (nd.op_type, nd.dependent_nodes)

/-- Well-formedness of a shape, as established by the construction API:
operand edges point strictly downwards, dependent edges strictly upwards and
inside the arena. -/
def WFb (sh : List (Op × List Nat)) : Bool :=
  (List.range sh.length).all fun i =>
    match sh.get? i with
    | none => true
    | some (op, deps) =>
      op.operands.all (fun o => decide (o < i)) &&
      deps.all fun d => decide (i < d) && decide (d < sh.length)

/-- Bounded-depth reachability along dependent edges: exactly the set of
nodes whose cache clearAux clears when started on i with the given fuel. -/
def clearedWithin (sh : List (Op × List Nat)) : Nat → Nat → Nat → Bool
  | 0, _, _ => false
  | fuel + 1, i, j =>
    match sh.get? i with
    | none => false
    | some (_, deps) => i == j || deps.any fun d => clearedWithin sh fuel d j

/-- Reachability along dependent (reverse) edges, the relation the spec
quantifies invalidation over. -/
inductive Reaches (s : GState F) : Nat → Nat → Prop where
  | refl (i : Nat) : Reaches s i i
  | step {i j k : Nat} (nd : Node F) (hg : s.get? i = some nd)
      (hd : j ∈ nd.dependent_nodes) (h : Reaches s j k) : Reaches s i k

/-- A concrete instantiation of the scalar parameters, used to evaluate the
embedding on explicit inputs; the four operations are chosen pairwise
distinct so that coincidences cannot mask a wrong operator. -/
def intOps : FloatOps Int :=
  ⟨fun x y => x + y, fun x y => x * y, fun x y => x + 2 * y + 1, fun x => 1 - 2 * x⟩

/-- Two inputs a, b feeding one Add node, built through the construction
API, with a set to 1 and b set to 2; the Add node's cache is still empty. -/
def stAdd : GState Int :=
  Graph.set
    (Graph.set
      (Graph.add (Graph.create_input (Graph.create_input [] "a").1 "b").1 0 1).1 0 1) 1 2

/-- The same graph after one compute of the Add node: every cache present. -/
def stAddC : GState Int := (Graph.compute intOps stAdd 2).2

/-- A lone input node that has never been set. -/
def stU : GState Int := (Graph.create_input [] "u").1

/-- An input x squared through mul x x, exercising operand sharing. -/
def stXX : GState Int := (Graph.add (Graph.create_input [] "x").1 0 0).1

/-- An input x with value 3 and no operator above it. -/
def stX : GState Int := Graph.set (Graph.create_input [] "x").1 0 3

/-- Node 3 adds mul(a, a) (node 2) to the never-set input b (node 1); input
a (node 0) carries 2.  Computing node 3 first fills node 2's cache with 4
and then hits the unset input b. -/
def stErr : GState Int :=
  Graph.set
    (Graph.add
      (Graph.mul (Graph.create_input (Graph.create_input [] "a").1 "b").1 0 0).1 2 1).1 0 2

/-- The node state left behind by the aborted compute of node 3 of stErr. -/
def stErrPost : GState Int := (Graph.traverse intOps 4 stErr 3).2

/-- Reading an index after setCache: only the cache field of the addressed
node changes. -/
lemma get?_setCache (s : GState F) (i j : Nat) (c : Option F) :
    (setCache s i c).get? j =
      if j = i then (s.get? j).map fun nd => Node.mk nd.op_type nd.dependent_nodes c
      else s.get? j := by
  induction s generalizing i j with
  | nil => simp [setCache]
  | cons nd rest ih =>
    cases i with
    | zero =>
      cases j with
      | zero => simp [setCache]
      | succ j => simp [setCache]
    | succ i =>
      cases j with
      | zero => simp [setCache]
      | succ j =>
        simp only [setCache, List.get?]
        rw [ih]
        simp [Nat.succ_inj]

/-- Reading an index after pushDep: only the dependent list of the addressed
node changes. -/
lemma get?_pushDep (s : GState F) (i j p : Nat) :
    (pushDep s i p).get? j =
      if j = i then
        (s.get? j).map fun nd =>
          Node.mk nd.op_type (nd.dependent_nodes ++ [p]) nd.cache
      else s.get? j := by
  induction s generalizing i j with
  | nil => simp [pushDep]
  | cons nd rest ih =>
    cases i with
    | zero =>
      cases j with
      | zero => simp [pushDep]
      | succ j => simp [pushDep]
    | succ i =>
      cases j with
      | zero => simp [pushDep]
      | succ j =>
        simp only [pushDep, List.get?]
        rw [ih]
        simp [Nat.succ_inj]

lemma length_setCache (s : GState F) (i : Nat) (c : Option F) :
    (setCache s i c).length = s.length := by
  induction s generalizing i with
  | nil => rfl
  | cons nd rest ih =>
    cases i with
    | zero => simp [setCache]
    | succ i => simp [setCache, ih]

lemma shapeOf_setCache (s : GState F) (i : Nat) (c : Option F) :
    shapeOf (setCache s i c) = shapeOf s := by
  induction s generalizing i with
  | nil => rfl
  | cons nd rest ih =>
    cases i with
    | zero => simp [setCache, shapeOf]
    | succ i =>
      simp only [setCache, shapeOf, List.map_cons]
      have := ih i
      simp only [shapeOf] at this
      rw [this]

lemma get?_shapeOf (s : GState F) (i : Nat) :
    (shapeOf s).get? i = (s.get? i).map fun nd => (nd.op_type, nd.dependent_nodes) := by
  simp [shapeOf, List.get?_map]

lemma length_shapeOf (s : GState F) : (shapeOf s).length = s.length := by
  simp [shapeOf]

lemma lt_length_of_get? {s : GState F} {i : Nat} {nd : Node F}
    (hg : s.get? i = some nd) : i < s.length := by
  by_contra h
  rw [List.get?_eq_none.mpr (Nat.le_of_not_lt h)] at hg
  exact Option.noConfusion hg

/-- Unpacking the boolean well-formedness check at one node. -/
lemma wf_at {s : GState F} {i : Nat} {nd : Node F}
    (hwf : WFb (shapeOf s) = true) (hg : s.get? i = some nd) :
    (∀ o ∈ nd.op_type.operands, o < i) ∧
      ∀ d ∈ nd.dependent_nodes, i < d ∧ d < s.length := by
  have hlt : i < s.length := lt_length_of_get? hg
  have hsh : (shapeOf s).get? i = some (nd.op_type, nd.dependent_nodes) := by
    rw [get?_shapeOf, hg]; rfl
  have hmem : i ∈ List.range (shapeOf s).length := by
    rw [List.mem_range, length_shapeOf]; exact hlt
  have h := List.all_eq_true.mp hwf i hmem
  rw [hsh] at h
  simp only [Bool.and_eq_true, List.all_eq_true, decide_eq_true_eq] at h
  refine ⟨h.1, fun d hd => ?_⟩
  have := h.2 d hd
  rw [length_shapeOf] at this
  exact this

/-- Well-formedness only depends on the shape, so it is invariant under any
operation that preserves the shape. -/
lemma wf_of_shape_eq {s s' : GState F} (hsh : shapeOf s' = shapeOf s)
    (hwf : WFb (shapeOf s) = true) : WFb (shapeOf s') = true := by
  rw [hsh]; exact hwf

/-- clear_cash only writes cache fields: the shape is untouched. -/
lemma shapeOf_clear_cash : ∀ (fuel : Nat) (s : GState F) (i : Nat),
    shapeOf (Graph.clear_cash fuel s i) = shapeOf s := by
  intro fuel
  induction fuel with
  | zero => intro s i; simp [Graph.clear_cash]
  | succ fuel ih =>
    intro s i
    rw [Graph.clear_cash]
    split
    · rfl
    · next nd hg =>
      have hfold : ∀ (l : List Nat) (t : GState F),
          shapeOf (l.foldl (fun acc d => Graph.clear_cash fuel acc d) t) = shapeOf t := by
        intro l
        induction l with
        | nil => intro t; rfl
        | cons d rest ihl => intro t; rw [List.foldl_cons, ihl, ih]
      rw [hfold, shapeOf_setCache]

/-- Full characterization of clear_cash: with a given depth budget, exactly
the caches of the nodes reachable within that budget along dependent edges
are cleared, and nothing else changes. -/
lemma get?_clear_cash : ∀ (fuel : Nat) (s : GState F) (i j : Nat),
    (Graph.clear_cash fuel s i).get? j =
      (s.get? j).map fun nd =>
        if clearedWithin (shapeOf s) fuel i j then
          Node.mk nd.op_type nd.dependent_nodes none
        else nd := by
  intro fuel
  induction fuel with
  | zero =>
    intro s i j
    simp [Graph.clear_cash, clearedWithin]
  | succ fuel ih =>
    intro s i j
    rw [Graph.clear_cash]
    split
    · next hg =>
      have hcw : clearedWithin (shapeOf s) (fuel + 1) i j = false := by
        simp only [clearedWithin, get?_shapeOf, hg, Option.map_none']
      simp [hcw]
    · next nd hg =>
      have hfold : ∀ (l : List Nat) (t : GState F) (j : Nat), shapeOf t = shapeOf s →
          (l.foldl (fun acc d => Graph.clear_cash fuel acc d) t).get? j =
            (t.get? j).map fun nd' =>
              if l.any (fun d => clearedWithin (shapeOf s) fuel d j) then
                Node.mk nd'.op_type nd'.dependent_nodes none
              else nd' := by
        intro l
        induction l with
        | nil => intro t j hsh; simp
        | cons d rest ihl =>
          intro t j hsh
          rw [List.foldl_cons, ihl _ j (by rw [shapeOf_clear_cash, hsh]), ih, hsh]
          cases hj : t.get? j with
          | none => simp
          | some nd' =>
            simp only [Option.map_some', List.any_cons]
            by_cases hd : clearedWithin (shapeOf s) fuel d j = true <;>
              by_cases hrest : (rest.any fun d => clearedWithin (shapeOf s) fuel d j) = true <;>
              simp [hd, hrest]
      rw [hfold _ _ j (shapeOf_setCache s i none), get?_setCache]
      have hcw : clearedWithin (shapeOf s) (fuel + 1) i j =
          ((i == j) || nd.dependent_nodes.any fun d =>
            clearedWithin (shapeOf s) fuel d j) := by
        simp only [clearedWithin, get?_shapeOf, hg, Option.map_some']
      rw [hcw]
      by_cases hji : j = i
      · subst hji
        rw [if_pos rfl, hg]
        simp only [Option.map_some', beq_self_eq_true, Bool.true_or]
        by_cases hB : (nd.dependent_nodes.any fun d =>
            clearedWithin (shapeOf s) fuel d j) = true <;>
          simp [hB]
      · rw [if_neg hji]
        have hij : (i == j) = false := by
          simp only [beq_eq_false_iff_ne, ne_eq]
          exact fun h => hji h.symm
        rw [hij]
        simp only [Bool.false_or]

/-- Cache-level reading of get?_clear_cash. -/
lemma cacheAt_clear_cash (fuel : Nat) (s : GState F) (i j : Nat) :
    cacheAt (Graph.clear_cash fuel s i) j =
      if clearedWithin (shapeOf s) fuel i j then none
      else cacheAt s j := by
  rw [cacheAt, cacheAt, get?_clear_cash]
  cases hj : s.get? j with
  | none => simp
  | some nd =>
    by_cases h : clearedWithin (shapeOf s) fuel i j = true <;> simp [h]

/-- Soundness of the bounded search: anything clearedWithin reaches is
reachable along dependent edges. -/
lemma reaches_of_clearedWithin {s : GState F} :
    ∀ {fuel i j : Nat}, clearedWithin (shapeOf s) fuel i j = true → Reaches s i j := by
  intro fuel
  induction fuel with
  | zero => intro i j h; simp [clearedWithin] at h
  | succ fuel ih =>
    intro i j h
    rw [clearedWithin, get?_shapeOf] at h
    cases hg : s.get? i with
    | none => rw [hg] at h; simp at h
    | some nd =>
      rw [hg] at h
      simp only [Option.map_some', Bool.or_eq_true, beq_iff_eq, List.any_eq_true] at h
      cases h with
      | inl h => subst h; exact Reaches.refl i
      | inr h =>
        obtain ⟨d, hd, hcw⟩ := h
        exact Reaches.step nd hg hd (ih hcw)

/-- Completeness of the bounded search on well-formed states: dependent
edges strictly increase the index, so a budget of length - i depth suffices
to find every reachable node. -/
lemma clearedWithin_of_reaches {s : GState F} (hwf : WFb (shapeOf s) = true)
    {i j : Nat} (h : Reaches s i j) :
    ∀ fuel, i < s.length → s.length - i ≤ fuel →
      clearedWithin (shapeOf s) fuel i j = true := by
  induction h with
  | refl i =>
    intro fuel hi hfuel
    cases fuel with
    | zero => omega
    | succ fuel =>
      rw [clearedWithin, get?_shapeOf]
      cases hg : s.get? i with
      | none =>
        exfalso
        rw [List.get?_eq_none] at hg
        omega
      | some nd => simp
  | step nd hg hd hr ih =>
    intro fuel hi hfuel
    obtain ⟨hlt, hlen⟩ := (wf_at hwf hg).2 _ hd
    cases fuel with
    | zero => omega
    | succ fuel =>
      rw [clearedWithin, get?_shapeOf, hg]
      simp only [Option.map_some', Bool.or_eq_true, beq_iff_eq, List.any_eq_true]
      exact Or.inr ⟨_, hd, ih fuel hlen (by omega)⟩

lemma cacheAt_eq {s : GState F} {i : Nat} {nd : Node F}
    (hg : s.get? i = some nd) : cacheAt s i = nd.cache := by
  rw [cacheAt, hg]; rfl

lemma cacheAt_setCache_self {s : GState F} {i : Nat} {nd : Node F}
    (hg : s.get? i = some nd) (c : Option F) :
    cacheAt (setCache s i c) i = c := by
  rw [cacheAt, get?_setCache, if_pos rfl, hg]; rfl

lemma cacheAt_setCache_ne {s : GState F} {i j : Nat} (hne : j ≠ i) (c : Option F) :
    cacheAt (setCache s i c) j = cacheAt s j := by
  rw [cacheAt, get?_setCache, if_neg hne]; rfl

/-- The combined frame property of the evaluation engine.  On a well-formed
state, one traverse call (a) never touches the shape, (b) never touches any
node above the queried index, (c) never disturbs an already present cache,
(d) only ever changes a cache from empty to present, and (e) whenever it
returns a value, that value sits in the queried node's cache afterwards. -/
lemma traverse_main (ops : FloatOps F) (fuel : Nat) (s : GState F) (i : Nat) :
    WFb (shapeOf s) = true → ∀ r s', Graph.traverse ops fuel s i = (r, s') →
      shapeOf s' = shapeOf s ∧
      (∀ j, i < j → s'.get? j = s.get? j) ∧
      (∀ j w, cacheAt s j = some w → cacheAt s' j = some w) ∧
      (∀ j, cacheAt s' j = cacheAt s j ∨ ∃ w, cacheAt s' j = some w) ∧
      (∀ v, r = some v → cacheAt s' i = some v) := by
  induction fuel, s, i using Graph.traverse.induct ops
  case case1 s i =>
    intro hwf r s' h
    simp only [Graph.traverse] at h
    injection h with h1 h2
    subst h1; subst h2
    exact ⟨rfl, fun j _ => rfl, fun j w hw => hw, fun j => Or.inl rfl,
      fun v hv => Option.noConfusion hv⟩
  case case2 fuel s i hg =>
    intro hwf r s' h
    simp only [Graph.traverse, hg] at h
    injection h with h1 h2
    subst h1; subst h2
    exact ⟨rfl, fun j _ => rfl, fun j w hw => hw, fun j => Or.inl rfl,
      fun v hv => Option.noConfusion hv⟩
  case case3 fuel s i nd hg v hc =>
    intro hwf r s' h
    simp only [Graph.traverse, hg, hc] at h
    injection h with h1 h2
    subst h1; subst h2
    refine ⟨rfl, fun j _ => rfl, fun j w hw => hw, fun j => Or.inl rfl, fun w hw => ?_⟩
    injection hw with hw
    rw [← hw, cacheAt_eq hg, hc]
  case case4 fuel s i nd hg hc nm hop =>
    intro hwf r s' h
    simp only [Graph.traverse, hg, hc, hop] at h
    injection h with h1 h2
    subst h1; subst h2
    exact ⟨rfl, fun j _ => rfl, fun j w hw => hw, fun j => Or.inl rfl,
      fun v hv => Option.noConfusion hv⟩
  case case5 fuel s i nd hg hc a b hop s1 ht1 ih1 =>
    intro hwf r s' h
    simp only [Graph.traverse, hg, hc, hop, ht1] at h
    injection h with h1 h2
    subst h1; subst h2
    obtain ⟨sh1, A1, B1, C1, D1⟩ := ih1 hwf _ _ ht1
    have ha : a < i := (wf_at hwf hg).1 a (by rw [hop]; simp [Op.operands])
    exact ⟨sh1, fun j hij => A1 j (by omega), B1, C1, fun v hv => Option.noConfusion hv⟩
  case case6 fuel s i nd hg hc a b hop va s1 ht1 s2 ht2 ih1 ih2 =>
    intro hwf r s' h
    simp only [Graph.traverse, hg, hc, hop, ht1, ht2] at h
    injection h with h1 h2
    subst h1; subst h2
    obtain ⟨sh1, A1, B1, C1, D1⟩ := ih1 hwf _ _ ht1
    obtain ⟨sh2, A2, B2, C2, D2⟩ := ih2 (wf_of_shape_eq sh1 hwf) _ _ ht2
    have ha : a < i := (wf_at hwf hg).1 a (by rw [hop]; simp [Op.operands])
    have hb : b < i := (wf_at hwf hg).1 b (by rw [hop]; simp [Op.operands])
    refine ⟨sh2.trans sh1, fun j hij => (A2 j (by omega)).trans (A1 j (by omega)),
      fun j w hw => B2 j w (B1 j w hw), fun j => ?_,
      fun v hv => Option.noConfusion hv⟩
    rcases C2 j with h2 | ⟨w, hw⟩
    · rcases C1 j with h1 | ⟨w, hw⟩
      · exact Or.inl (h2.trans h1)
      · exact Or.inr ⟨w, by rw [h2]; exact hw⟩
    · exact Or.inr ⟨w, hw⟩
  case case7 fuel s i nd hg hc a b hop va s1 ht1 vb s2 ht2 ih1 ih2 =>
    intro hwf r s' h
    simp only [Graph.traverse, hg, hc, hop, ht1, ht2] at h
    injection h with h1 h2
    subst h1; subst h2
    obtain ⟨sh1, A1, B1, C1, D1⟩ := ih1 hwf _ _ ht1
    obtain ⟨sh2, A2, B2, C2, D2⟩ := ih2 (wf_of_shape_eq sh1 hwf) _ _ ht2
    have ha : a < i := (wf_at hwf hg).1 a (by rw [hop]; simp [Op.operands])
    have hb : b < i := (wf_at hwf hg).1 b (by rw [hop]; simp [Op.operands])
    have hs2i : s2.get? i = some nd := by rw [A2 i hb, A1 i ha, hg]
    refine ⟨?_, ?_, ?_, ?_, ?_⟩
    · rw [shapeOf_setCache]; exact sh2.trans sh1
    · intro j hij
      rw [get?_setCache, if_neg (by omega), A2 j (by omega), A1 j (by omega)]
    · intro j w hw
      by_cases hji : j = i
      · subst hji
        rw [cacheAt_eq hg, hc] at hw
        exact Option.noConfusion hw
      · rw [cacheAt_setCache_ne hji]
        exact B2 j w (B1 j w hw)
    · intro j
      by_cases hji : j = i
      · subst hji
        exact Or.inr ⟨_, cacheAt_setCache_self hs2i _⟩
      · rw [cacheAt_setCache_ne hji]
        rcases C2 j with h2 | ⟨w, hw⟩
        · rcases C1 j with h1 | ⟨w, hw⟩
          · exact Or.inl (h2.trans h1)
          · exact Or.inr ⟨w, by rw [h2]; exact hw⟩
        · exact Or.inr ⟨w, hw⟩
    · intro v hv
      injection hv with hv
      rw [← hv]
      exact cacheAt_setCache_self hs2i _
  case case8 fuel s i nd hg hc a b hop s1 ht1 ih1 =>
    intro hwf r s' h
    simp only [Graph.traverse, hg, hc, hop, ht1] at h
    injection h with h1 h2
    subst h1; subst h2
    obtain ⟨sh1, A1, B1, C1, D1⟩ := ih1 hwf _ _ ht1
    have ha : a < i := (wf_at hwf hg).1 a (by rw [hop]; simp [Op.operands])
    exact ⟨sh1, fun j hij => A1 j (by omega), B1, C1, fun v hv => Option.noConfusion hv⟩
  case case9 fuel s i nd hg hc a b hop va s1 ht1 s2 ht2 ih1 ih2 =>
    intro hwf r s' h
    simp only [Graph.traverse, hg, hc, hop, ht1, ht2] at h
    injection h with h1 h2
    subst h1; subst h2
    obtain ⟨sh1, A1, B1, C1, D1⟩ := ih1 hwf _ _ ht1
    obtain ⟨sh2, A2, B2, C2, D2⟩ := ih2 (wf_of_shape_eq sh1 hwf) _ _ ht2
    have ha : a < i := (wf_at hwf hg).1 a (by rw [hop]; simp [Op.operands])
    have hb : b < i := (wf_at hwf hg).1 b (by rw [hop]; simp [Op.operands])
    refine ⟨sh2.trans sh1, fun j hij => (A2 j (by omega)).trans (A1 j (by omega)),
      fun j w hw => B2 j w (B1 j w hw), fun j => ?_,
      fun v hv => Option.noConfusion hv⟩
    rcases C2 j with h2 | ⟨w, hw⟩
    · rcases C1 j with h1 | ⟨w, hw⟩
      · exact Or.inl (h2.trans h1)
      · exact Or.inr ⟨w, by rw [h2]; exact hw⟩
    · exact Or.inr ⟨w, hw⟩
  case case10 fuel s i nd hg hc a b hop va s1 ht1 vb s2 ht2 ih1 ih2 =>
    intro hwf r s' h
    simp only [Graph.traverse, hg, hc, hop, ht1, ht2] at h
    injection h with h1 h2
    subst h1; subst h2
    obtain ⟨sh1, A1, B1, C1, D1⟩ := ih1 hwf _ _ ht1
    obtain ⟨sh2, A2, B2, C2, D2⟩ := ih2 (wf_of_shape_eq sh1 hwf) _ _ ht2
    have ha : a < i := (wf_at hwf hg).1 a (by rw [hop]; simp [Op.operands])
    have hb : b < i := (wf_at hwf hg).1 b (by rw [hop]; simp [Op.operands])
    have hs2i : s2.get? i = some nd := by rw [A2 i hb, A1 i ha, hg]
    refine ⟨?_, ?_, ?_, ?_, ?_⟩
    · rw [shapeOf_setCache]; exact sh2.trans sh1
    · intro j hij
      rw [get?_setCache, if_neg (by omega), A2 j (by omega), A1 j (by omega)]
    · intro j w hw
      by_cases hji : j = i
      · subst hji
        rw [cacheAt_eq hg, hc] at hw
        exact Option.noConfusion hw
      · rw [cacheAt_setCache_ne hji]
        exact B2 j w (B1 j w hw)
    · intro j
      by_cases hji : j = i
      · subst hji
        exact Or.inr ⟨_, cacheAt_setCache_self hs2i _⟩
      · rw [cacheAt_setCache_ne hji]
        rcases C2 j with h2 | ⟨w, hw⟩
        · rcases C1 j with h1 | ⟨w, hw⟩
          · exact Or.inl (h2.trans h1)
          · exact Or.inr ⟨w, by rw [h2]; exact hw⟩
        · exact Or.inr ⟨w, hw⟩
    · intro v hv
      injection hv with hv
      rw [← hv]
      exact cacheAt_setCache_self hs2i _
  case case11 fuel s i nd hg hc a hop s1 ht1 ih1 =>
    intro hwf r s' h
    simp only [Graph.traverse, hg, hc, hop, ht1] at h
    injection h with h1 h2
    subst h1; subst h2
    obtain ⟨sh1, A1, B1, C1, D1⟩ := ih1 hwf _ _ ht1
    have ha : a < i := (wf_at hwf hg).1 a (by rw [hop]; simp [Op.operands])
    exact ⟨sh1, fun j hij => A1 j (by omega), B1, C1, fun v hv => Option.noConfusion hv⟩
  case case12 fuel s i nd hg hc a hop va s1 ht1 ih1 =>
    intro hwf r s' h
    simp only [Graph.traverse, hg, hc, hop, ht1] at h
    injection h with h1 h2
    subst h1; subst h2
    obtain ⟨sh1, A1, B1, C1, D1⟩ := ih1 hwf _ _ ht1
    have ha : a < i := (wf_at hwf hg).1 a (by rw [hop]; simp [Op.operands])
    have hs1i : s1.get? i = some nd := by rw [A1 i ha, hg]
    refine ⟨?_, ?_, ?_, ?_, ?_⟩
    · rw [shapeOf_setCache]; exact sh1
    · intro j hij
      rw [get?_setCache, if_neg (by omega), A1 j (by omega)]
    · intro j w hw
      by_cases hji : j = i
      · subst hji
        rw [cacheAt_eq hg, hc] at hw
        exact Option.noConfusion hw
      · rw [cacheAt_setCache_ne hji]
        exact B1 j w hw
    · intro j
      by_cases hji : j = i
      · subst hji
        exact Or.inr ⟨_, cacheAt_setCache_self hs1i _⟩
      · rw [cacheAt_setCache_ne hji]
        exact C1 j
    · intro v hv
      injection hv with hv
      rw [← hv]
      exact cacheAt_setCache_self hs1i _
  case case13 fuel s i nd hg hc b e hop s1 ht1 ih1 =>
    intro hwf r s' h
    simp only [Graph.traverse, hg, hc, hop, ht1] at h
    injection h with h1 h2
    subst h1; subst h2
    obtain ⟨sh1, A1, B1, C1, D1⟩ := ih1 hwf _ _ ht1
    have hb : b < i := (wf_at hwf hg).1 b (by rw [hop]; simp [Op.operands])
    exact ⟨sh1, fun j hij => A1 j (by omega), B1, C1, fun v hv => Option.noConfusion hv⟩
  case case14 fuel s i nd hg hc b e hop vb s1 ht1 s2 ht2 ih1 ih2 =>
    intro hwf r s' h
    simp only [Graph.traverse, hg, hc, hop, ht1, ht2] at h
    injection h with h1 h2
    subst h1; subst h2
    obtain ⟨sh1, A1, B1, C1, D1⟩ := ih1 hwf _ _ ht1
    obtain ⟨sh2, A2, B2, C2, D2⟩ := ih2 (wf_of_shape_eq sh1 hwf) _ _ ht2
    have hb : b < i := (wf_at hwf hg).1 b (by rw [hop]; simp [Op.operands])
    have he : e < i := (wf_at hwf hg).1 e (by rw [hop]; simp [Op.operands])
    refine ⟨sh2.trans sh1, fun j hij => (A2 j (by omega)).trans (A1 j (by omega)),
      fun j w hw => B2 j w (B1 j w hw), fun j => ?_,
      fun v hv => Option.noConfusion hv⟩
    rcases C2 j with h2 | ⟨w, hw⟩
    · rcases C1 j with h1 | ⟨w, hw⟩
      · exact Or.inl (h2.trans h1)
      · exact Or.inr ⟨w, by rw [h2]; exact hw⟩
    · exact Or.inr ⟨w, hw⟩
  case case15 fuel s i nd hg hc b e hop vb s1 ht1 ve s2 ht2 ih1 ih2 =>
    intro hwf r s' h
    simp only [Graph.traverse, hg, hc, hop, ht1, ht2] at h
    injection h with h1 h2
    subst h1; subst h2
    obtain ⟨sh1, A1, B1, C1, D1⟩ := ih1 hwf _ _ ht1
    obtain ⟨sh2, A2, B2, C2, D2⟩ := ih2 (wf_of_shape_eq sh1 hwf) _ _ ht2
    have hb : b < i := (wf_at hwf hg).1 b (by rw [hop]; simp [Op.operands])
    have he : e < i := (wf_at hwf hg).1 e (by rw [hop]; simp [Op.operands])
    have hs2i : s2.get? i = some nd := by rw [A2 i he, A1 i hb, hg]
    refine ⟨?_, ?_, ?_, ?_, ?_⟩
    · rw [shapeOf_setCache]; exact sh2.trans sh1
    · intro j hij
      rw [get?_setCache, if_neg (by omega), A2 j (by omega), A1 j (by omega)]
    · intro j w hw
      by_cases hji : j = i
      · subst hji
        rw [cacheAt_eq hg, hc] at hw
        exact Option.noConfusion hw
      · rw [cacheAt_setCache_ne hji]
        exact B2 j w (B1 j w hw)
    · intro j
      by_cases hji : j = i
      · subst hji
        exact Or.inr ⟨_, cacheAt_setCache_self hs2i _⟩
      · rw [cacheAt_setCache_ne hji]
        rcases C2 j with h2 | ⟨w, hw⟩
        · rcases C1 j with h1 | ⟨w, hw⟩
          · exact Or.inl (h2.trans h1)
          · exact Or.inr ⟨w, by rw [h2]; exact hw⟩
        · exact Or.inr ⟨w, hw⟩
    · intro v hv
      injection hv with hv
      rw [← hv]
      exact cacheAt_setCache_self hs2i _

/-- The memoization short-circuit of traverse: a present cache is returned
immediately, with no state change, whatever recursion budget remains. -/
lemma traverse_cache_hit (ops : FloatOps F) {s : GState F} {i : Nat} {v : F}
    (fuel : Nat) (hc : cacheAt s i = some v) :
    Graph.traverse ops (fuel + 1) s i = (some v, s) := by
  rw [cacheAt] at hc
  cases hg : s.get? i with
  | none => rw [hg] at hc; exact Option.noConfusion hc
  | some nd =>
    rw [hg] at hc
    have hcc : nd.cache = some v := by simpa using hc
    simp only [Graph.traverse, hg, hcc]

lemma opAt_inv {s : GState F} {i : Nat} {op : Op} (h : opAt s i = some op) :
    ∃ nd, s.get? i = some nd ∧ nd.op_type = op := by
  rw [opAt] at h
  cases hg : s.get? i with
  | none => rw [hg] at h; exact Option.noConfusion h
  | some nd =>
    rw [hg] at h
    injection h with h
    exact ⟨nd, rfl, h⟩

lemma opAt_eq_shape (s : GState F) (j : Nat) :
    opAt s j = ((shapeOf s).get? j).map Prod.fst := by
  rw [opAt, get?_shapeOf]
  cases s.get? j <;> rfl

lemma depsAt_eq_shape (s : GState F) (j : Nat) :
    depsAt s j = (((shapeOf s).get? j).map Prod.snd).getD [] := by
  rw [depsAt, get?_shapeOf]
  cases s.get? j <;> rfl

/-- C1: for every operator node whose cache is empty, compute returns the
operator applied to the recursively computed operand values (Add: sum, Mul:
product, Pow: powf of base and exponent, Sin: sine of the operand, each
with the single-precision primitive modelled by the FloatOps parameter),
and writes that result into the node's cache (empty becomes present) before
returning. -/
theorem traverse_operator_applies_and_caches (ops : FloatOps F) (s : GState F)
    (i fuel : Nat) (hwf : WFb (shapeOf s) = true) (hc : cacheAt s i = none) :
    (∀ a b va vb s1 s2, opAt s i = some (Op.add a b) →
      Graph.traverse ops fuel s a = (some va, s1) →
      Graph.traverse ops fuel s1 b = (some vb, s2) →
      Graph.traverse ops (fuel + 1) s i =
        (some (ops.add va vb), setCache s2 i (some (ops.add va vb))) ∧
      cacheAt (setCache s2 i (some (ops.add va vb))) i = some (ops.add va vb)) ∧
    (∀ a b va vb s1 s2, opAt s i = some (Op.mul a b) →
      Graph.traverse ops fuel s a = (some va, s1) →
      Graph.traverse ops fuel s1 b = (some vb, s2) →
      Graph.traverse ops (fuel + 1) s i =
        (some (ops.mul va vb), setCache s2 i (some (ops.mul va vb))) ∧
      cacheAt (setCache s2 i (some (ops.mul va vb))) i = some (ops.mul va vb)) ∧
    (∀ b e vb ve s1 s2, opAt s i = some (Op.powF32 b e) →
      Graph.traverse ops fuel s b = (some vb, s1) →
      Graph.traverse ops fuel s1 e = (some ve, s2) →
      Graph.traverse ops (fuel + 1) s i =
        (some (ops.powf vb ve), setCache s2 i (some (ops.powf vb ve))) ∧
      cacheAt (setCache s2 i (some (ops.powf vb ve))) i = some (ops.powf vb ve)) ∧
    (∀ a va s1, opAt s i = some (Op.sin a) →
      Graph.traverse ops fuel s a = (some va, s1) →
      Graph.traverse ops (fuel + 1) s i =
        (some (ops.sinf va), setCache s1 i (some (ops.sinf va))) ∧
      cacheAt (setCache s1 i (some (ops.sinf va))) i = some (ops.sinf va)) := by
  refine ⟨?_, ?_, ?_, ?_⟩
  · intro a b va vb s1 s2 hop ht1 ht2
    obtain ⟨nd, hg, hopnd⟩ := opAt_inv hop
    have hcn : nd.cache = none := by rw [cacheAt_eq hg] at hc; exact hc
    obtain ⟨sh1, A1, -, -, -⟩ := traverse_main ops fuel s a hwf _ _ ht1
    obtain ⟨sh2, A2, -, -, -⟩ := traverse_main ops fuel s1 b (wf_of_shape_eq sh1 hwf) _ _ ht2
    have ha : a < i := (wf_at hwf hg).1 a (by rw [hopnd]; simp [Op.operands])
    have hb : b < i := (wf_at hwf hg).1 b (by rw [hopnd]; simp [Op.operands])
    have hs2i : s2.get? i = some nd := by rw [A2 i hb, A1 i ha, hg]
    constructor
    · simp only [Graph.traverse, hg, hcn, hopnd, ht1, ht2]
    · exact cacheAt_setCache_self hs2i _
  · intro a b va vb s1 s2 hop ht1 ht2
    obtain ⟨nd, hg, hopnd⟩ := opAt_inv hop
    have hcn : nd.cache = none := by rw [cacheAt_eq hg] at hc; exact hc
    obtain ⟨sh1, A1, -, -, -⟩ := traverse_main ops fuel s a hwf _ _ ht1
    obtain ⟨sh2, A2, -, -, -⟩ := traverse_main ops fuel s1 b (wf_of_shape_eq sh1 hwf) _ _ ht2
    have ha : a < i := (wf_at hwf hg).1 a (by rw [hopnd]; simp [Op.operands])
    have hb : b < i := (wf_at hwf hg).1 b (by rw [hopnd]; simp [Op.operands])
    have hs2i : s2.get? i = some nd := by rw [A2 i hb, A1 i ha, hg]
    constructor
    · simp only [Graph.traverse, hg, hcn, hopnd, ht1, ht2]
    · exact cacheAt_setCache_self hs2i _
  · intro b e vb ve s1 s2 hop ht1 ht2
    obtain ⟨nd, hg, hopnd⟩ := opAt_inv hop
    have hcn : nd.cache = none := by rw [cacheAt_eq hg] at hc; exact hc
    obtain ⟨sh1, A1, -, -, -⟩ := traverse_main ops fuel s b hwf _ _ ht1
    obtain ⟨sh2, A2, -, -, -⟩ := traverse_main ops fuel s1 e (wf_of_shape_eq sh1 hwf) _ _ ht2
    have hb : b < i := (wf_at hwf hg).1 b (by rw [hopnd]; simp [Op.operands])
    have he : e < i := (wf_at hwf hg).1 e (by rw [hopnd]; simp [Op.operands])
    have hs2i : s2.get? i = some nd := by rw [A2 i he, A1 i hb, hg]
    constructor
    · simp only [Graph.traverse, hg, hcn, hopnd, ht1, ht2]
    · exact cacheAt_setCache_self hs2i _
  · intro a va s1 hop ht1
    obtain ⟨nd, hg, hopnd⟩ := opAt_inv hop
    have hcn : nd.cache = none := by rw [cacheAt_eq hg] at hc; exact hc
    obtain ⟨sh1, A1, -, -, -⟩ := traverse_main ops fuel s a hwf _ _ ht1
    have ha : a < i := (wf_at hwf hg).1 a (by rw [hopnd]; simp [Op.operands])
    have hs1i : s1.get? i = some nd := by rw [A1 i ha, hg]
    constructor
    · simp only [Graph.traverse, hg, hcn, hopnd, ht1]
    · exact cacheAt_setCache_self hs1i _

/-- Witness for C1: the Add node of the concrete two-input graph, with
inputs 1 and 2 and empty operator cache, computes 1 + 2 = 3 and caches it. -/
theorem traverse_operator_applies_and_caches_witness :
    Graph.traverse intOps 2 stAdd 2 = (some 3, setCache stAdd 2 (some 3)) ∧
      cacheAt (setCache stAdd 2 (some 3)) 2 = some 3 :=
  (traverse_operator_applies_and_caches intOps stAdd 2 1 (by decide) (by decide)).1
    0 1 1 2 stAdd stAdd (by decide) (by decide) (by decide)

/-- C2: setting an input clears the cache of the input itself and of every
node transitively reachable from it along dependent edges, then writes the
new value into the input's cache: afterwards the input's cache holds the
value and every strictly reachable node's cache is empty. -/
theorem set_invalidation_completeness (s : GState F) (i : Nat) (nm : String)
    (v : F) (hwf : WFb (shapeOf s) = true)
    (hop : opAt s i = some (Op.input nm)) :
    cacheAt (Graph.set s i v) i = some v ∧
      ∀ j, Reaches s i j → j ≠ i → cacheAt (Graph.set s i v) j = none := by
  obtain ⟨nd, hg, hopnd⟩ := opAt_inv hop
  have hset : Graph.set s i v =
      setCache (Graph.clear_cash s.length s i) i (some v) := by
    simp only [Graph.set, hg, hopnd]
  constructor
  · obtain ⟨nd', hg'⟩ : ∃ nd', (Graph.clear_cash s.length s i).get? i = some nd' := by
      rw [get?_clear_cash, hg]
      exact ⟨_, rfl⟩
    rw [hset, cacheAt_setCache_self hg']
  · intro j hr hji
    have hcw : clearedWithin (shapeOf s) s.length i j = true :=
      clearedWithin_of_reaches hwf hr s.length (lt_length_of_get? hg) (Nat.sub_le _ _)
    rw [hset, cacheAt_setCache_ne hji, cacheAt_clear_cash, if_pos hcw]

/-- Witness for C2: after set(a, 7) on the fully computed two-input graph,
input a carries 7 and the dependent Add node's cache is cleared. -/
theorem set_invalidation_completeness_witness :
    cacheAt (Graph.set stAddC 0 7) 0 = some 7 ∧
      cacheAt (Graph.set stAddC 0 7) 2 = none :=
  ⟨(set_invalidation_completeness stAddC 0 "a" 7 (by decide) (by decide)).1,
    (set_invalidation_completeness stAddC 0 "a" 7 (by decide) (by decide)).2 2
      (reaches_of_clearedWithin
        (show clearedWithin (shapeOf stAddC) 3 0 2 = true by decide)) (by decide)⟩

/-- C3: a compute call that returns a value leaves that value in the
queried node's cache, so an immediately following compute call returns the
bit-identical value with no recursive re-evaluation: it succeeds even with
a recursion budget of 1, which forbids any recursion into operands, and it
leaves the node state untouched. -/
theorem compute_memoization (ops : FloatOps F) (s : GState F) (i fuel : Nat)
    (v : F) (s' : GState F) (hwf : WFb (shapeOf s) = true)
    (h : Graph.traverse ops fuel s i = (some v, s')) :
    ∀ f, Graph.traverse ops (f + 1) s' i = (some v, s') := by
  obtain ⟨-, -, -, -, D⟩ := traverse_main ops fuel s i hwf _ _ h
  intro f
  exact traverse_cache_hit ops f (D v rfl)

/-- Witness for C3: recomputing the Add node of the computed two-input
graph returns 3 again, with recursion budget 1 and no state change. -/
theorem compute_memoization_witness :
    Graph.traverse intOps 1 stAddC 2 = (some 3, stAddC) :=
  compute_memoization intOps stAdd 2 3 3 stAddC (by decide) (by decide) 0

/-- C4: when compute reaches an Input node whose cache is empty, no value
is produced: the call aborts (the Rust unwrap panic, modelled as none)
instead of inventing a default value, and the node state is unchanged. -/
theorem compute_unset_input_aborts (ops : FloatOps F) (s : GState F)
    (i fuel : Nat) (nm : String) (hop : opAt s i = some (Op.input nm))
    (hc : cacheAt s i = none) :
    Graph.traverse ops (fuel + 1) s i = (none, s) := by
  obtain ⟨nd, hg, hopnd⟩ := opAt_inv hop
  have hcn : nd.cache = none := by rw [cacheAt_eq hg] at hc; exact hc
  simp only [Graph.traverse, hg, hcn, hopnd]

/-- Witness for C4: computing a never-set input aborts with no value. -/
theorem compute_unset_input_aborts_witness :
    Graph.traverse intOps 1 stU 0 = (none, stU) :=
  compute_unset_input_aborts intOps stU 0 0 "u" (by decide) (by decide)

/-- Counterexample to C5 as stated: calling set on the Add node of the
concrete mul-free sharing graph returns the state completely unchanged.
The source's set falls through silently on every non-Input node — it is a
no-op with no error channel at all (its Rust signature returns unit), so
the call is silently ignored rather than rejected and reported. -/
theorem set_noninput_not_rejected_counterexample :
    opAt stXX 1 = some (Op.add 0 0) ∧ Graph.set stXX 1 5 = stXX := by decide

/-- C5 amended: calling set on a non-input node (Add, Mul, Pow or Sin) is
silently ignored: the whole node state, caches included, is returned
unchanged and no error is reported. -/
theorem set_noninput_silent_noop (s : GState F) (i : Nat) (v : F) (op : Op)
    (hop : opAt s i = some op) (hni : ∀ nm, op ≠ Op.input nm) :
    Graph.set s i v = s := by
  obtain ⟨nd, hg, hopnd⟩ := opAt_inv hop
  cases op with
  | input nm => exact absurd rfl (hni nm)
  | add a b => simp only [Graph.set, hg, hopnd]
  | mul a b => simp only [Graph.set, hg, hopnd]
  | sin a => simp only [Graph.set, hg, hopnd]
  | powF32 b e => simp only [Graph.set, hg, hopnd]

/-- Witness for the amended C5. -/
theorem set_noninput_silent_noop_witness : Graph.set stXX 1 7 = stXX :=
  set_noninput_silent_noop stXX 1 7 (Op.add 0 0) (by decide)
    (fun nm h => Op.noConfusion h)

/-- Counterexample to C6 as stated: computing node 3 of stErr aborts on the
unset input b, yet the mul subterm (node 2), fully evaluated before the
error was reached, keeps its fresh cache value 4 — the cache state is not
exactly as it was before the call. -/
theorem compute_error_not_rolled_back_counterexample :
    (Graph.traverse intOps 4 stErr 3).1 = none ∧
      cacheAt stErr 2 = none ∧
      cacheAt (Graph.traverse intOps 4 stErr 3).2 2 = some 4 := by decide

/-- C6 amended: a usage error aborts the triggering call without producing
a value; the graph structure and every previously present cache are left
exactly as they were, and any cache that did change was empty before and
now holds the value of an operand subcomputation completed before the
error (the partial writes are not rolled back). -/
theorem compute_error_frame (ops : FloatOps F) (s : GState F) (i fuel : Nat)
    (s' : GState F) (hwf : WFb (shapeOf s) = true)
    (h : Graph.traverse ops fuel s i = (none, s')) :
    shapeOf s' = shapeOf s ∧
      (∀ j w, cacheAt s j = some w → cacheAt s' j = some w) ∧
      (∀ j, cacheAt s' j = cacheAt s j ∨ ∃ w, cacheAt s' j = some w) := by
  obtain ⟨sh, -, B, C, -⟩ := traverse_main ops fuel s i hwf _ _ h
  exact ⟨sh, B, C⟩

/-- Witness for the amended C6: in the aborted computation on stErr the
present cache of input a is untouched. -/
theorem compute_error_frame_witness : cacheAt stErrPost 0 = some 2 :=
  (compute_error_frame intOps stErr 3 4 stErrPost (by decide) (by decide)).2.1
    0 2 (by decide)

/-- C7: nodes not reachable from the mutated input along dependent edges
keep their cache exactly as it was across a set call: no spurious
invalidation. -/
theorem set_invalidation_precision (s : GState F) (i : Nat) (nm : String)
    (v : F) (j : Nat) (hop : opAt s i = some (Op.input nm))
    (hnr : ¬ Reaches s i j) :
    cacheAt (Graph.set s i v) j = cacheAt s j := by
  obtain ⟨nd, hg, hopnd⟩ := opAt_inv hop
  have hji : j ≠ i := fun h => hnr (by rw [h]; exact Reaches.refl i)
  have hcw : clearedWithin (shapeOf s) s.length i j = false := by
    cases hcw : clearedWithin (shapeOf s) s.length i j
    · rfl
    · exact absurd (reaches_of_clearedWithin hcw) hnr
  simp only [Graph.set, hg, hopnd]
  rw [cacheAt_setCache_ne hji, cacheAt_clear_cash, if_neg (by simp [hcw])]

/-- Witness for C7: setting input b leaves the cache of the unrelated
input a untouched. -/
theorem set_invalidation_precision_witness :
    cacheAt (Graph.set stAddC 1 5) 0 = cacheAt stAddC 0 :=
  set_invalidation_precision stAddC 1 "b" 5 0 (by decide)
    (fun h => absurd
      (clearedWithin_of_reaches (by decide) h 3 (by decide) (by decide))
      (by decide))

/-- C8: the same input handle may be passed as both operands of mul, and
mul(x, x).compute() equals x.compute() times x.compute() for every value of
x (x.compute() returns the set value v on each of its two evaluations, and
the Mul node returns their product). -/
theorem mul_sharing_correctness (ops : FloatOps F) (s : GState F) (i : Nat)
    (nm : String) (v : F) (hop : opAt s i = some (Op.input nm))
    (hc : cacheAt s i = some v) :
    ∀ f, (Graph.traverse ops (f + 2) (Graph.mul s i i).1 (Graph.mul s i i).2).1 =
        some (ops.mul v v) ∧
      (Graph.traverse ops (f + 1) s i).1 = some v := by
  obtain ⟨nd, hg, hopnd⟩ := opAt_inv hop
  have hnc : nd.cache = some v := by rw [cacheAt_eq hg] at hc; exact hc
  have hilen : i < s.length := lt_length_of_get? hg
  have hmul1 : (Graph.mul s i i).1 =
      pushDep (pushDep (s ++ [Node.mk (Op.mul i i) [] none]) i s.length)
        i s.length := rfl
  have hmul2 : (Graph.mul s i i).2 = s.length := rfl
  have hgk : (Graph.mul s i i).1.get? s.length =
      some (Node.mk (Op.mul i i) [] none) := by
    rw [hmul1, get?_pushDep, if_neg (by omega), get?_pushDep, if_neg (by omega),
      List.get?_concat_length]
  have hci : cacheAt (Graph.mul s i i).1 i = some v := by
    rw [hmul1, cacheAt, get?_pushDep, if_pos rfl, get?_pushDep, if_pos rfl,
      List.get?_append hilen, hg]
    simp [hnc]
  intro f
  have h1 : Graph.traverse ops (f + 1) (Graph.mul s i i).1 i =
      (some v, (Graph.mul s i i).1) := traverse_cache_hit ops f hci
  refine ⟨?_, ?_⟩
  · have key : Graph.traverse ops (f + 1 + 1) (Graph.mul s i i).1 s.length =
        (some (ops.mul v v),
          setCache (Graph.mul s i i).1 s.length (some (ops.mul v v))) := by
      rw [Graph.traverse, hgk]
      simp only [h1]
    have hf : f + 2 = f + 1 + 1 := rfl
    rw [hmul2, hf, key]
  · rw [traverse_cache_hit ops f hc]

/-- Witness for C8: with x set to 3, mul(x, x) computes 9 = 3 * 3. -/
theorem mul_sharing_correctness_witness :
    (Graph.traverse intOps 2 (Graph.mul stX 0 0).1 (Graph.mul stX 0 0).2).1 =
        some 9 ∧
      (Graph.traverse intOps 1 stX 0).1 = some 3 :=
  mul_sharing_correctness intOps stX 0 "x" 3 (by decide) (by decide) 0

/-- C10: compute only ever writes cache fields: every node keeps its
operation and its dependent list, any cache that changes goes from empty to
present, and when the queried node's cache is already present, compute
returns the cached value and modifies no node at all. -/
theorem compute_frame_effect (ops : FloatOps F) (s : GState F) (i fuel : Nat)
    (r : Option F) (s' : GState F) (hwf : WFb (shapeOf s) = true)
    (h : Graph.traverse ops (fuel + 1) s i = (r, s')) :
    (∀ j, opAt s' j = opAt s j ∧ depsAt s' j = depsAt s j) ∧
      (∀ j, cacheAt s' j ≠ cacheAt s j →
        cacheAt s j = none ∧ ∃ w, cacheAt s' j = some w) ∧
      (∀ v, cacheAt s i = some v → r = some v ∧ s' = s) := by
  obtain ⟨sh, -, B, C, -⟩ := traverse_main ops (fuel + 1) s i hwf _ _ h
  refine ⟨?_, ?_, ?_⟩
  · intro j
    constructor
    · rw [opAt_eq_shape, opAt_eq_shape, sh]
    · rw [depsAt_eq_shape, depsAt_eq_shape, sh]
  · intro j hne
    have hnone : cacheAt s j = none := by
      cases hcs : cacheAt s j with
      | none => rfl
      | some w =>
        rw [hcs] at hne
        exact absurd (B j w hcs) hne
    refine ⟨hnone, ?_⟩
    rcases C j with hsame | hex
    · exact absurd hsame hne
    · exact hex
  · intro v hv
    have hhit := traverse_cache_hit ops fuel hv
    rw [h] at hhit
    injection hhit with h1 h2
    exact ⟨h1, h2⟩

/-- Witness for C10: across the aborted compute of stErr, node 1 keeps its
operation. -/
theorem compute_frame_effect_witness : opAt stErrPost 1 = opAt stErr 1 :=
  ((compute_frame_effect intOps stErr 3 3 (Graph.traverse intOps 4 stErr 3).1
    stErrPost (by decide) (by decide)).1 1).1

end CompGraph
